import Mathlib

/-!
Verification development for the `udptun` UDP tunnel.

The Rust sources are shallowly embedded: stateful code becomes explicit state
passing, `u8` bytes become `Nat` (all constants are below 256 and no byte
arithmetic overflows), socket addresses become abstract `Nat` tags,
`chrono::DateTime`/`Duration` become `Int` instants/spans measured in the same
unit, and fallible paths return `Except`/`Option`.  A Rust `panic!`/`unwrap`
failure is modelled as an explicit `panicked` outcome.
-/

namespace Udptun

/-- Protocol constants from `main.rs`, `mod proto`. -/
def PROTO_VERSION : Nat := 0x01

/-- `PACKET_CONNECT` from `main.rs`. -/
def PACKET_CONNECT : Nat := 0x00

/-- `PACKET_CONN_ACK` from `main.rs`. -/
def PACKET_CONN_ACK : Nat := 0x01

/-- `PACKET_DATA` from `main.rs`. -/
def PACKET_DATA : Nat := 0x10

/-- `TYPE_SERVER` from `main.rs`. -/
def TYPE_SERVER : Nat := 0x00

/-- `TYPE_CLIENT` from `main.rs`. -/
def TYPE_CLIENT : Nat := 0x01

/-! ### Association lists

`HashMap` is modelled as an association list with unique keys; `HashSet` as a
duplicate-free list. -/

/-- `HashMap::get`. -/
def alookup {κ α : Type} [DecidableEq κ] (k : κ) : List (κ × α) → Option α
  | [] => none
  | (k', v) :: t => if k' = k then some v else alookup k t

/-- `HashMap::insert`: replace the binding for `k`, or append one. -/
def aupdate {κ α : Type} [DecidableEq κ] (k : κ) (v : α) : List (κ × α) → List (κ × α)
  | [] => [(k, v)]
  | (k', v') :: t => if k' = k then (k, v) :: t else (k', v') :: aupdate k v t

/-- `HashMap::remove`. -/
def aremove {κ α : Type} [DecidableEq κ] (k : κ) : List (κ × α) → List (κ × α)
  | [] => []
  | (k', v') :: t => if k' = k then t else (k', v') :: aremove k t

/-- `HashSet::insert`. -/
def insertSet {α : Type} [DecidableEq α] (x : α) (s : List α) : List α :=
  if x ∈ s then s else x :: s

/-! ### Entry-side cache (`cache.rs`) -/

/-- `SocketId` from `cache.rs`: a connection id paired with the external
peer's socket address (the address is an abstract `Nat` tag). -/
structure SocketId where
  id : Nat
  addr : Nat
deriving DecidableEq, Repr

/-- `CacheEntry` from `cache.rs`.  `last_access` is a `Cell`; mutation through
the shared `Rc` is modelled by storing entries in a separate store (see
`Cache.entries`) that both indexes point into. -/
structure CacheEntry where
  last_access : Int
  data : SocketId
deriving DecidableEq, Repr

/-- `Cache` from `cache.rs`.  `by_id` and `by_addr` hold `Rc<CacheEntry>`
references; the `Rc` sharing is modelled by an entry store `entries` keyed by
an allocation counter `fresh`, with both indexes mapping to store keys. -/
structure Cache where
  timeout : Int
  ids : List Nat
  entries : List (Nat × CacheEntry)
  fresh : Nat
  by_id : List (Nat × Nat)
  by_addr : List (Nat × Nat)
  expired : List SocketId
deriving DecidableEq, Repr

/-- `Error` from `cache.rs`. -/
inductive CacheError where
  | noFreeSlots
deriving DecidableEq, Repr

/-- `Cache::new`. -/
def Cache.new (timeout : Int) : Cache :=
  { timeout, ids := [], entries := [], fresh := 0, by_id := [], by_addr := [], expired := [] }

/-- `Vec::remove` after a successful `binary_search`, as used in
`Cache::cleanup`: on the sorted duplicate-free id vector this removes the
element when present (modelled as first-match removal, which coincides with
the binary-search removal on sorted lists). -/
def removeSorted (x : Nat) : List Nat → List Nat
  | [] => []
  | y :: t => if y = x then t else y :: removeSorted x t

/-- `Vec::insert` at the position returned by a failed `binary_search`, as
used in `Cache::insert`: sorted insertion. -/
def insertSorted (x : Nat) : List Nat → List Nat
  | [] => [x]
  | y :: t => if x ≤ y then x :: y :: t else y :: insertSorted x t

/-- The loop body of `Cache::cleanup`: for each drained `SocketId`, remove its
id from the sorted vector and drop both index bindings. -/
def cleanupList : List SocketId → Cache → Cache
  | [], c => c
  | x :: t, c =>
      cleanupList t
        { c with
          ids := removeSorted x.id c.ids,
          by_id := aremove x.id c.by_id,
          by_addr := aremove x.addr c.by_addr }

/-- `Cache::cleanup`: drain the pending-expired set, removing each entry from
both indexes and from the sorted id vector. -/
def Cache.cleanup (c : Cache) : Cache :=
  cleanupList c.expired { c with expired := [] }

/-- The `find_map` scan in `Cache::get_next_free_id`: walk the sorted id
vector with the running index `exp`, returning the first index (cast to `u8`,
hence `% 256`) whose element differs from it. -/
def nextFreeAux : List Nat → Nat → Option Nat
  | [], _ => none
  | v :: rest, exp => if v ≠ exp % 256 then some (exp % 256) else nextFreeAux rest (exp + 1)

/-- `Cache::get_next_free_id`: the scan above, else `ids.len().to_u8()`
(which is `none` when the length exceeds 255). -/
def Cache.get_next_free_id (c : Cache) : Option Nat :=
  (nextFreeAux c.ids 0).orElse
    (fun _ => if c.ids.length ≤ 255 then some c.ids.length else none)

/-- `Cache::prepare_entry` on the entry stored at key `r`: expired entries
(`now - last_access > timeout`) are flagged in the pending-expired set and
yield `none`; otherwise `last_access` is set to `now` through the shared cell
and the `SocketId` is returned. -/
def Cache.prepare_entry (c : Cache) (now : Int) (r : Nat) : Option SocketId × Cache :=
  match alookup r c.entries with
  | none => (none, c)
  | some e =>
      if c.timeout < now - e.last_access then
        (none, { c with expired := insertSet e.data c.expired })
      else
        (some e.data, { c with entries := aupdate r { e with last_access := now } c.entries })

/-- `Cache::get_by_id`. -/
def Cache.get_by_id (c : Cache) (now : Int) (id : Nat) : Option SocketId × Cache :=
  match alookup id c.by_id with
  | none => (none, c)
  | some r => c.prepare_entry now r

/-- `Cache::get_by_addr`. -/
def Cache.get_by_addr (c : Cache) (now : Int) (addr : Nat) : Option SocketId × Cache :=
  match alookup addr c.by_addr with
  | none => (none, c)
  | some r => c.prepare_entry now r

/-- `Cache::insert`: run `cleanup`, take the supplied id or allocate the
lowest free one (else fail with `NoFreeSlots`), insert the id into the sorted
vector when absent, and bind a fresh entry in both indexes.  The returned
state also covers the error case (the `&mut self` cleanup persists). -/
def Cache.insert (c : Cache) (now : Int) (idOpt : Option Nat) (addr : Nat) :
    Except CacheError SocketId × Cache :=
  let c1 := c.cleanup
  match idOpt.orElse (fun _ => c1.get_next_free_id) with
  | none => (Except.error CacheError.noFreeSlots, c1)
  | some id =>
      let ids := if id ∈ c1.ids then c1.ids else insertSorted id c1.ids
      let data : SocketId := { id, addr }
      (Except.ok data,
        { c1 with
          ids,
          entries := aupdate c1.fresh { last_access := now, data } c1.entries,
          fresh := c1.fresh + 1,
          by_addr := aupdate addr c1.fresh c1.by_addr,
          by_id := aupdate id c1.fresh c1.by_id })

/-- `Cache::get_or_insert_by_addr`. -/
def Cache.get_or_insert_by_addr (c : Cache) (now : Int) (addr : Nat) :
    Except CacheError SocketId × Cache :=
  match c.get_by_addr now addr with
  | (none, c1) => c1.insert now none addr
  | (some r, c1) => (Except.ok r, c1)

/-! ### Target-side cache (`server_cache.rs`) -/

/-- `ConnId` from `server.rs`: the tunnel peer address paired with the one-byte
connection id (`from` is a Lean keyword, hence `fromAddr`). -/
structure ConnId where
  fromAddr : Nat
  cid : Nat
deriving DecidableEq, Repr

/-- `CacheEntry` from `server_cache.rs`: the key plus the dedicated UDP socket
(modelled as an abstract `Nat` tag). -/
structure ServerCacheEntry where
  id : ConnId
  socket : Nat
deriving DecidableEq, Repr

/-- `CacheEntryOuter` from `server_cache.rs`. -/
structure ServerCacheEntryOuter where
  last_access : Int
  data : ServerCacheEntry
deriving DecidableEq, Repr

/-- `Cache` from `server_cache.rs` (named `ServerCache` here to avoid clashing
with the entry-side `Cache`). -/
structure ServerCache where
  timeout : Int
  by_id : List (ConnId × ServerCacheEntryOuter)
  expired : List ConnId
deriving DecidableEq, Repr

/-- `Cache::new` from `server_cache.rs`. -/
def ServerCache.new (timeout : Int) : ServerCache :=
  { timeout, by_id := [], expired := [] }

/-- `Cache::cleanup` from `server_cache.rs`. -/
def ServerCache.cleanup (c : ServerCache) : ServerCache :=
  { c with by_id := c.expired.foldl (fun m x => aremove x m) c.by_id, expired := [] }

/-- `Cache::insert` from `server_cache.rs`: cleanup, then bind the entry. -/
def ServerCache.insert (c : ServerCache) (now : Int) (id : ConnId) (socket : Nat) : ServerCache :=
  let c1 := c.cleanup
  { c1 with by_id := aupdate id { last_access := now, data := { id, socket } } c1.by_id }

/-- `Cache::prepare_entry` / `prepare_entry_mut` from `server_cache.rs`,
acting on one binding: expired entries are flagged and skipped, fresh ones
get `last_access` set to `now` and are yielded. -/
def serverPrepare (timeout : Int) (now : Int) (e : ServerCacheEntryOuter) :
    Option ServerCacheEntryOuter × Option ConnId :=
  if timeout < now - e.last_access then (none, some e.data.id)
  else (some { e with last_access := now }, none)

/-- `Cache::get_by_id_mut` from `server_cache.rs`. -/
def ServerCache.get_by_id_mut (c : ServerCache) (now : Int) (id : ConnId) :
    Option ServerCacheEntry × ServerCache :=
  match alookup id c.by_id with
  | none => (none, c)
  | some e =>
      match serverPrepare c.timeout now e with
      | (some e', _) =>
          (some e'.data, { c with by_id := aupdate id e' c.by_id })
      | (none, _) =>
          (none, { c with expired := insertSet e.data.id c.expired })

/-- The recursion behind `Cache::iter` from `server_cache.rs`: walk the
bindings in order, applying `prepare_entry` to each — yielding and renewing
the live ones, flagging the expired ones.  Returns (yielded entries, rebuilt
binding list, newly flagged ids).  `Local::now()` is sampled per entry in the
source; the samples within one poll-set construction are modelled as the
single instant `now`. -/
def serverIterGo (timeout : Int) (now : Int) :
    List (ConnId × ServerCacheEntryOuter) →
    List ServerCacheEntry × List (ConnId × ServerCacheEntryOuter) × List ConnId
  | [] => ([], [], [])
  | (k, e) :: t =>
      let (ys, m, marks) := serverIterGo timeout now t
      match serverPrepare timeout now e with
      | (some e', _) => (e'.data :: ys, (k, e') :: m, marks)
      | (none, _) => (ys, (k, e) :: m, e.data.id :: marks)

/-- `Cache::iter` from `server_cache.rs` as consumed by `poll_sockets` in
`server.rs`: the live entries in binding order, plus the cache state after
the traversal's `Cell`/`RefCell` side effects. -/
def ServerCache.iter (c : ServerCache) (now : Int) : List ServerCacheEntry × ServerCache :=
  let (ys, m, marks) := serverIterGo c.timeout now c.by_id
  (ys, { c with by_id := m, expired := marks.foldl (fun s x => insertSet x s) c.expired })

/-! ### Handshake (`common.rs`) -/

/-- The datagram `send_connect` sends before waiting for the response. -/
def connectDatagram : List Nat := [PACKET_CONNECT]

/-- The `ConnectResponse` arm of `Error` from `common.rs`. -/
inductive ConnectError where
  | connectResponse (response : List Nat) (expected : List Nat)
deriving DecidableEq, Repr

/-- The response check in `send_connect` from `common.rs`: the received bytes
`buffer[..len]` must equal `{CONN_ACK, remote_type, 0x01}` — any other
content or length is `Error::ConnectResponse`. -/
def send_connect (response : List Nat) (remote_type : Nat) : Except ConnectError Unit :=
  let expected := [PACKET_CONN_ACK, remote_type, 0x01]
  if response = expected then Except.ok ()
  else Except.error (ConnectError.connectResponse response expected)

/-- Exit status of the target process after the handshake, modelled from
`start_server` in `server.rs`: `setup_tunnel_socket(...).expect(...)` turns a
handshake error into a Rust panic, which terminates the process with the
standard panic exit status 101; on success the process continues (`none`). -/
def serverStartupExitCode (response : List Nat) : Option Nat :=
  match send_connect response TYPE_CLIENT with
  | Except.ok _ => none
  | Except.error _ => some 101

/-! ### Entry dispatcher (`client.rs`) -/

/-- The entry dispatcher's state: the tunnel socket's connected peer (set by
`respond_connect`), the connection-id cache, and the persistent shared recv
buffer — `buf` models `buffer[2..]` of the `bufsize`-byte buffer, the region
every `recv` writes into and the from-tunnel branch reads. -/
structure EntryState where
  tunnelPeer : Option Nat
  cache : Cache
  buf : List Nat
deriving DecidableEq, Repr

/-- What one entry-dispatcher loop iteration did. -/
inductive EntryEvent where
  | droppedEmpty
  | sentConnAck (bytes : List Nat)
  | sentExternal (addr : Nat) (bytes : List Nat)
  | droppedUnknownId (id : Nat)
  | droppedInvalidType (b : Nat)
  | sentTunnel (bytes : List Nat)
  | panicked
deriving DecidableEq, Repr

/-- The `Direction::FromTunnel` branch of `start_client` in `client.rs`, for a
datagram of `dgram` bytes from `sender` just received into `buffer[2..]`
(leaving the tail of the previous buffer contents in place).  `PACKET_CONNECT`
runs `respond_connect` (which re-binds the tunnel peer, writes the 3 ack bytes
into the buffer and sends them).  `PACKET_DATA` reads `id = buffer[1]` — a
stale byte when the datagram is shorter than 2 — and then takes
`&mut buffer[2..size]`, which panics when `size < 2` (range start past end);
otherwise the payload is forwarded to the cached peer, or dropped when the id
is unknown. -/
def entryHandleTunnel (st : EntryState) (now : Int) (sender : Nat) (dgram : List Nat) :
    EntryState × EntryEvent :=
  let size := dgram.length
  let buf := dgram ++ st.buf.drop size
  if size = 0 then ({ st with buf }, EntryEvent.droppedEmpty)
  else if buf.headI = PACKET_CONNECT then
    let ack := [PACKET_CONN_ACK, TYPE_CLIENT, PROTO_VERSION]
    ({ st with tunnelPeer := some sender, buf := ack ++ buf.drop 3 },
      EntryEvent.sentConnAck ack)
  else if buf.headI = PACKET_DATA then
    let id := buf.getD 1 0
    if size < 2 then ({ st with buf }, EntryEvent.panicked)
    else
      match st.cache.get_by_id now id with
      | (some s, c) =>
          ({ st with cache := c, buf }, EntryEvent.sentExternal s.addr ((buf.take size).drop 2))
      | (none, c) => ({ st with cache := c, buf }, EntryEvent.droppedUnknownId id)
  else ({ st with buf }, EntryEvent.droppedInvalidType buf.headI)

/-- The id the `PACKET_DATA` branch reads (`let id = buffer[1];` in
`client.rs`) for a received datagram `dgram`: position 1 of the buffer after
the `recv`, which is stale data when `dgram` has fewer than 2 bytes. -/
def entryDataIdRead (st : EntryState) (dgram : List Nat) : Nat :=
  (dgram ++ st.buf.drop dgram.length).getD 1 0

/-- The `Direction::IntoTunnel` branch of `start_client` in `client.rs`, for a
payload `dgram` from external peer `sender` received into `buffer[2..]`:
`get_or_insert_by_addr(sender).unwrap()` — the `.unwrap()` turns a
`NoFreeSlots` error into a panic — then `buffer[0] = PACKET_DATA`,
`buffer[1] = id`, and `send(&buffer[..size + 2])`. -/
def entryHandleExternal (st : EntryState) (now : Int) (sender : Nat) (dgram : List Nat) :
    EntryState × EntryEvent :=
  let size := dgram.length
  let buf := dgram ++ st.buf.drop size
  match st.cache.get_or_insert_by_addr now sender with
  | (Except.error _, c) => ({ st with cache := c, buf }, EntryEvent.panicked)
  | (Except.ok s, c) =>
      ({ st with cache := c, buf }, EntryEvent.sentTunnel (PACKET_DATA :: s.id :: buf.take size))

/-! ### Target dispatcher (`server.rs`) -/

/-- The disposition of one from-tunnel datagram at the target dispatcher. -/
inductive ServerTunnelOutcome where
  | dropEmpty
  | connAck (newPeer : Nat) (sent : List Nat)
  | dropTooSmall
  | forward (id : ConnId) (payload : List Nat)
  | dropInvalidType (b : Nat)
deriving DecidableEq, Repr

/-- The `Direction::FromTunnel` branch of `start_server` in `server.rs` for a
datagram of `dgram` bytes from `sender`: empty datagrams are silently
dropped; `PACKET_CONNECT` runs `respond_connect` with `TYPE_SERVER`;
`PACKET_DATA` requires `size ≥ 2` (else log-and-drop), derives
`ConnId { from: sender, cid: buffer[1] }` and sends `&buffer[2..]` — the
bytes after the first two — on that connection's socket (the cache lookup or
socket creation selects the socket and is abstracted away here). -/
def serverFromTunnel (sender : Nat) (dgram : List Nat) : ServerTunnelOutcome :=
  if dgram.length = 0 then ServerTunnelOutcome.dropEmpty
  else if dgram.headI = PACKET_CONNECT then
    ServerTunnelOutcome.connAck sender [PACKET_CONN_ACK, TYPE_SERVER, PROTO_VERSION]
  else if dgram.headI = PACKET_DATA then
    if dgram.length < 2 then ServerTunnelOutcome.dropTooSmall
    else ServerTunnelOutcome.forward { fromAddr := sender, cid := dgram.getD 1 0 } (dgram.drop 2)
  else ServerTunnelOutcome.dropInvalidType dgram.headI

/-! ### CLI timeout (`main.rs`) -/

/-- The cache-expiry timeout built in `main` (`main.rs` line 48), in seconds:
the `--timeout` argument is passed to `Duration::minutes`, so the resulting
span covers `60 * arg` seconds. -/
def cliTimeoutSeconds (arg : Int) : Int := 60 * arg

/-! ### Reachable entry-cache states

The entry dispatcher drives its cache only through `get_or_insert_by_addr`,
`get_by_id`, `get_by_addr` and (inside `insert`) `cleanup`. -/

/-- States of the entry-side cache reachable from `Cache::new` under the
operations the entry dispatcher performs. -/
inductive Reach (t : Int) : Cache → Prop where
  | init : Reach t (Cache.new t)
  | goi {c : Cache} (now : Int) (addr : Nat) :
      Reach t c → Reach t (c.get_or_insert_by_addr now addr).2
  | gid {c : Cache} (now : Int) (i : Nat) :
      Reach t c → Reach t (c.get_by_id now i).2
  | gaddr {c : Cache} (now : Int) (a : Nat) :
      Reach t c → Reach t (c.get_by_addr now a).2
  | clean {c : Cache} : Reach t c → Reach t c.cleanup

/-- Soundness of one pending-expired mark: whatever binding its id or its
address still has leads to an entry carrying exactly this `SocketId`, so
draining the mark removes one coherent entry from every index. -/
def ExpOk (c : Cache) (x : SocketId) : Prop :=
  (∀ r, alookup x.id c.by_id = some r → ∃ e, alookup r c.entries = some e ∧ e.data = x)
  ∧ (∀ r, alookup x.addr c.by_addr = some r → ∃ e, alookup r c.entries = some e ∧ e.data = x)

/-- The structural invariant of the entry-side cache: the sorted id vector is
strictly sorted, byte-valued, and lists exactly the bound ids; both hash maps
have unique keys; each index binding leads to a stored entry that carries its
own key and is bound under the other axis at the same entry reference; and
every stored entry predates the allocation counter. -/
structure CoreInv (c : Cache) : Prop where
  idsSorted : c.ids.Pairwise (· < ·)
  idsLt : ∀ i ∈ c.ids, i < 256
  byIdNodup : (c.by_id.map Prod.fst).Nodup
  byAddrNodup : (c.by_addr.map Prod.fst).Nodup
  idsIff : ∀ i, i ∈ c.ids ↔ (alookup i c.by_id).isSome
  byIdOk : ∀ i r, alookup i c.by_id = some r →
    ∃ e, alookup r c.entries = some e ∧ e.data.id = i ∧ alookup e.data.addr c.by_addr = some r
  byAddrOk : ∀ a r, alookup a c.by_addr = some r →
    ∃ e, alookup r c.entries = some e ∧ e.data.addr = a ∧ alookup e.data.id c.by_id = some r
  entriesFresh : ∀ r, (alookup r c.entries).isSome → r < c.fresh

/-- The full invariant: the structural invariant plus soundness of every
pending-expired mark. -/
structure Inv (c : Cache) extends CoreInv c : Prop where
  expiredOk : ∀ x ∈ c.expired, ExpOk c x

/-- An entry-side cache holding all 256 connection ids, each live (inserted at
instant 0 for peers `0..255`): the witness state for the full-table behavior. -/
def fullCache : Cache :=
  { timeout := 100
    ids := List.range 256
    entries := (List.range 256).map (fun n => (n, { last_access := 0, data := { id := n, addr := n } }))
    fresh := 256
    by_id := (List.range 256).map (fun n => (n, n))
    by_addr := (List.range 256).map (fun n => (n, n))
    expired := [] }

/-- A small concrete entry-side cache (live ids `0`, `1`, `3` for peers `10`,
`11`, `13`): the witness state for lowest-free-id allocation. -/
def cacheW : Cache :=
  { timeout := 100
    ids := [0, 1, 3]
    entries :=
      [(0, { last_access := 0, data := { id := 0, addr := 10 } }),
       (1, { last_access := 0, data := { id := 1, addr := 11 } }),
       (2, { last_access := 0, data := { id := 3, addr := 13 } })]
    fresh := 3
    by_id := [(0, 0), (1, 1), (3, 2)]
    by_addr := [(10, 0), (11, 1), (13, 2)]
    expired := [] }

end Udptun

namespace Udptun

/-! ### Claim theorems -/

/-- Claim C1 (confirmed): round-trip framing.  For a payload `P` received from
external peer `sender` (with `|P| ≤ bufsize − 2`, the capacity of the shared
recv buffer) and connection id `i` produced by the cache for that peer, the
entry dispatcher's framed tunnel datagram is exactly the byte `0x10`, then the
byte `i`, then `P` unchanged; and the target dispatcher, receiving a DATA
datagram of those bytes, forwards exactly the bytes after the first two,
namely `P`. -/
theorem roundtrip_framing (st : EntryState) (now : Int) (sender tsender i : Nat)
    (P : List Nat) (hP : P.length ≤ st.buf.length)
    (hid : (st.cache.get_or_insert_by_addr now sender).1 =
      Except.ok { id := i, addr := sender }) :
    (entryHandleExternal st now sender P).2 = EntryEvent.sentTunnel (PACKET_DATA :: i :: P)
    ∧ serverFromTunnel tsender (PACKET_DATA :: i :: P) =
        ServerTunnelOutcome.forward { fromAddr := tsender, cid := i } P := by
  constructor
  · rcases hgoi : st.cache.get_or_insert_by_addr now sender with ⟨res, cc⟩
    rw [hgoi] at hid
    simp only at hid
    subst hid
    simp [entryHandleExternal, hgoi, List.take_left]
  · simp [serverFromTunnel, PACKET_DATA, PACKET_CONNECT, List.headI, List.getD]

/-- Witness for `roundtrip_framing`: a concrete payload `[5, 6]` from peer `9`
on a fresh cache gets id `0`, frames to `[0x10, 0, 5, 6]`, and the target
strips it back to `[5, 6]`. -/
theorem roundtrip_framing_witness :
    (entryHandleExternal
        { tunnelPeer := none, cache := Cache.new 100, buf := [0, 0, 0, 0] } 0 9 [5, 6]).2 =
      EntryEvent.sentTunnel (PACKET_DATA :: 0 :: [5, 6])
    ∧ serverFromTunnel 4 (PACKET_DATA :: 0 :: [5, 6]) =
        ServerTunnelOutcome.forward { fromAddr := 4, cid := 0 } [5, 6] :=
  roundtrip_framing
    { tunnelPeer := none, cache := Cache.new 100, buf := [0, 0, 0, 0] } 0 9 4 0 [5, 6]
    (by decide) rfl

set_option maxRecDepth 20000 in
/-- Claim C5 (code bug): when a datagram arrives from an unknown external peer
`999` while all 256 ids are live, `Cache::insert` does return the recoverable
`Error::NoFreeSlots` — but `start_client` calls
`get_or_insert_by_addr(sender_addr).unwrap()`, so the dispatcher panics and
the process terminates instead of logging, dropping the datagram and
continuing. -/
theorem noFreeSlots_unwrap_panics :
    fullCache.ids.length = 256
    ∧ (fullCache.insert 0 none 999).1 = Except.error CacheError.noFreeSlots
    ∧ (entryHandleExternal
        { tunnelPeer := some 7, cache := fullCache, buf := [0, 0, 0, 0] } 0 999 [42]).2 =
      EntryEvent.panicked := by
  refine ⟨rfl, rfl, rfl⟩

/-- Claim C6 counterexample: the active target side receives the wrong-role
response `{0x01, 0x00, 0x01}`; the handshake fails (`ConnectResponse`), but
the process terminates through the `expect` panic with the Rust panic exit
status 101 — not with exit code 2 as the claim states. -/
theorem handshake_exit_code_cex :
    serverStartupExitCode [PACKET_CONN_ACK, TYPE_SERVER, PROTO_VERSION] = some 101
    ∧ serverStartupExitCode [PACKET_CONN_ACK, TYPE_SERVER, PROTO_VERSION] ≠ some 2 := by
  refine ⟨rfl, by decide⟩

/-- Claim C6 (corrected): on the active side, after sending CONNECT, the
handshake succeeds exactly when the received response equals the 3-byte
sequence `{CONN_ACK, expected_peer_role, 0x01}`; any difference in a byte or
in length yields the fatal startup error `ConnectResponse`, and on the target
side the `expect` on `setup_tunnel_socket` then terminates the process by
panic (exit status 101), not with exit code 2. -/
theorem handshake_mismatch_disposition (response : List Nat) (role : Nat) :
    (send_connect response role = Except.ok () ↔
      response = [PACKET_CONN_ACK, role, 0x01])
    ∧ (response ≠ [PACKET_CONN_ACK, role, 0x01] →
        send_connect response role =
          Except.error (ConnectError.connectResponse response [PACKET_CONN_ACK, role, 0x01]))
    ∧ (response ≠ [PACKET_CONN_ACK, TYPE_CLIENT, 0x01] →
        serverStartupExitCode response = some 101) := by
  refine ⟨?_, ?_, ?_⟩
  · unfold send_connect
    by_cases h : response = [PACKET_CONN_ACK, role, 0x01] <;> simp [h]
  · intro h
    unfold send_connect
    simp [h]
  · intro h
    unfold serverStartupExitCode send_connect
    simp [TYPE_CLIENT] at h ⊢
    simp [h]

/-- Witness for `handshake_mismatch_disposition`: the wrong-version response
`{0x01, 0x01, 0x02}` at the target is rejected and the process panics. -/
theorem handshake_mismatch_disposition_witness :
    send_connect [0x01, 0x01, 0x02] TYPE_CLIENT =
      Except.error
        (ConnectError.connectResponse [0x01, 0x01, 0x02] [PACKET_CONN_ACK, TYPE_CLIENT, 0x01])
    ∧ serverStartupExitCode [0x01, 0x01, 0x02] = some 101 :=
  ⟨(handshake_mismatch_disposition [0x01, 0x01, 0x02] TYPE_CLIENT).2.1 (by decide),
   (handshake_mismatch_disposition [0x01, 0x01, 0x02] TYPE_CLIENT).2.2 (by decide)⟩

/-- Claim C7 (code bug): the CLI help for `--timeout` says "Time in seconds"
with default `3600`, but `main` passes the value to `Duration::minutes`, so
the cache-expiry timeout for the default becomes 216,000 seconds (60 hours),
not 3600 seconds. -/
theorem timeout_minutes_bug :
    cliTimeoutSeconds 3600 = 216000 ∧ cliTimeoutSeconds 3600 ≠ 3600 := by
  refine ⟨rfl, by decide⟩

/-- Claim C8 counterexample: in an established entry-dispatcher state (tunnel
peer bound to `7`), a CONNECT datagram from sender `9` re-runs the passive
handshake: `respond_connect` re-binds the tunnel peer to `9` and replies
CONN_ACK — contradicting "after establishment a received CONNECT packet does
not re-run the passive-side handshake or re-bind the tunnel peer". -/
theorem established_rebind_cex :
    (entryHandleTunnel { tunnelPeer := some 7, cache := Cache.new 100, buf := [0, 0, 0, 0] }
        0 9 [PACKET_CONNECT]).1.tunnelPeer = some 9
    ∧ (entryHandleTunnel { tunnelPeer := some 7, cache := Cache.new 100, buf := [0, 0, 0, 0] }
        0 9 [PACKET_CONNECT]).2 =
        EntryEvent.sentConnAck [PACKET_CONN_ACK, TYPE_CLIENT, PROTO_VERSION]
    ∧ (some 9 : Option Nat) ≠ some 7 := by
  refine ⟨rfl, rfl, by decide⟩

/-- Claim C8 (corrected): ESTABLISHED is not terminal.  The dispatcher keeps
no handshake state: in every state — established or not — a received datagram
whose first byte is CONNECT re-runs the passive-side handshake, re-binding the
tunnel peer to the sender and replying `{CONN_ACK, own_role, 0x01}`. -/
theorem connect_always_rehandshakes (st : EntryState) (now : Int) (sender : Nat)
    (dgram : List Nat) (hne : dgram ≠ []) (hc : dgram.headI = PACKET_CONNECT) :
    (entryHandleTunnel st now sender dgram).1.tunnelPeer = some sender
    ∧ (entryHandleTunnel st now sender dgram).2 =
        EntryEvent.sentConnAck [PACKET_CONN_ACK, TYPE_CLIENT, PROTO_VERSION] := by
  rcases dgram with _ | ⟨b, rest⟩
  · exact absurd rfl hne
  · simp [List.headI] at hc
    subst hc
    constructor <;> simp [entryHandleTunnel, List.headI]

/-- Witness for `connect_always_rehandshakes`: the concrete established state
from `established_rebind_cex` applied through the theorem. -/
theorem connect_always_rehandshakes_witness :
    (entryHandleTunnel { tunnelPeer := some 7, cache := Cache.new 100, buf := [0, 0, 0, 0] }
        5 11 [PACKET_CONNECT, 3]).1.tunnelPeer = some 11
    ∧ (entryHandleTunnel { tunnelPeer := some 7, cache := Cache.new 100, buf := [0, 0, 0, 0] }
        5 11 [PACKET_CONNECT, 3]).2 =
        EntryEvent.sentConnAck [PACKET_CONN_ACK, TYPE_CLIENT, PROTO_VERSION] :=
  connect_always_rehandshakes
    { tunnelPeer := some 7, cache := Cache.new 100, buf := [0, 0, 0, 0] }
    5 11 [PACKET_CONNECT, 3] (by decide) (by decide)

/-- Claim C10 counterexample: with stale buffer contents `[0x10, 0x07, ...]`
from an earlier datagram, a received tunnel datagram of size exactly 1 whose
byte is `0x10` makes the entry dispatcher read the stale connection id `7`
from buffer position 1 — but it then panics evaluating `&mut buffer[2..1]`
(range start past end) instead of proceeding with a zero-length payload (which
on this empty cache would have been a logged drop for unknown id `7`). -/
theorem short_data_panics_cex :
    (entryHandleTunnel { tunnelPeer := some 7, cache := Cache.new 100, buf := [16, 7, 0, 0] }
        0 7 [PACKET_DATA]).2 = EntryEvent.panicked
    ∧ entryDataIdRead { tunnelPeer := some 7, cache := Cache.new 100, buf := [16, 7, 0, 0] }
        [PACKET_DATA] = 7
    ∧ EntryEvent.panicked ≠ EntryEvent.droppedUnknownId 7 := by
  refine ⟨rfl, rfl, by decide⟩

/-- Claim C10 (corrected): the entry dispatcher indeed has no minimum-size
check for DATA tunnel datagrams and reads the connection id from buffer
position 1 — a stale byte for a size-1 datagram — but it does not proceed
with a zero-length payload: slicing `buffer[2..size]` with `size = 1` panics,
terminating the process.  Only the target dispatcher checks `size ≥ 2` and
drops the short datagram. -/
theorem short_data_no_min_size_check (st : EntryState) (now : Int) (sender : Nat) :
    (entryHandleTunnel st now sender [PACKET_DATA]).2 = EntryEvent.panicked
    ∧ entryDataIdRead st [PACKET_DATA] = st.buf.getD 1 0
    ∧ serverFromTunnel sender [PACKET_DATA] = ServerTunnelOutcome.dropTooSmall := by
  refine ⟨?_, ?_, ?_⟩
  · simp [entryHandleTunnel, List.headI, PACKET_DATA, PACKET_CONNECT]
  · obtain ⟨p, ca, buf⟩ := st
    rcases buf with _ | ⟨b, t⟩ <;> simp [entryDataIdRead, List.getD]
  · simp [serverFromTunnel, List.headI, PACKET_DATA, PACKET_CONNECT]

/-! ### Lowest-free-id allocation (for C2) -/

/-- When the index scan of `get_next_free_id` finds a mismatch on a strictly
sorted, 256-bounded id vector, the returned index is not among the ids and
everything between the start index and it is. -/
theorem nextFreeAux_some_spec :
    ∀ (S : List Nat) (exp k : Nat), S.Pairwise (· < ·) → (∀ y ∈ S, exp ≤ y) →
      (∀ y ∈ S, y < 256) → nextFreeAux S exp = some k →
      exp ≤ k ∧ k < 256 ∧ k ∉ S ∧ ∀ m, exp ≤ m → m < k → m ∈ S := by
  intro S
  induction S with
  | nil => intro exp k _ _ _ h; exact absurd h (by simp [nextFreeAux])
  | cons v rest ih =>
      intro exp k hs hlb hub h
      have hv256 : v < 256 := hub v (List.mem_cons_self v rest)
      have hexpv : exp ≤ v := hlb v (List.mem_cons_self v rest)
      have hexp256 : exp < 256 := lt_of_le_of_lt hexpv hv256
      have hmod : exp % 256 = exp := Nat.mod_eq_of_lt hexp256
      rw [nextFreeAux, hmod] at h
      rcases List.pairwise_cons.mp hs with ⟨hvlt, hrest⟩
      by_cases hve : v = exp
      · subst hve
        simp at h
        have hlb' : ∀ y ∈ rest, v + 1 ≤ y := fun y hy => hvlt y hy
        have hub' : ∀ y ∈ rest, y < 256 := fun y hy => hub y (List.mem_cons_of_mem v hy)
        obtain ⟨h1, h2, h3, h4⟩ := ih (v + 1) k hrest hlb' hub' h
        refine ⟨le_trans (Nat.le_succ v) h1, h2, ?_, ?_⟩
        · intro hk
          rcases List.mem_cons.mp hk with hk | hk
          · omega
          · exact h3 hk
        · intro m hm1 hm2
          by_cases hmv : m = v
          · exact hmv ▸ List.mem_cons_self v rest
          · exact List.mem_cons_of_mem v (h4 m (by omega) hm2)
      · rw [if_pos hve] at h
        have hk : exp = k := by simpa using h
        subst hk
        refine ⟨le_refl _, hexp256, ?_, ?_⟩
        · intro hkmem
          rcases List.mem_cons.mp hkmem with hkm | hkm
          · omega
          · exact absurd (hvlt exp hkm) (by omega)
        · intro m hm1 hm2; omega

/-- When the index scan of `get_next_free_id` finds no mismatch on a strictly
sorted, 256-bounded id vector, the vector is exactly the contiguous range
starting at the start index. -/
theorem nextFreeAux_none_spec :
    ∀ (S : List Nat) (exp : Nat), S.Pairwise (· < ·) → (∀ y ∈ S, exp ≤ y) →
      (∀ y ∈ S, y < 256) → nextFreeAux S exp = none →
      S = List.range' exp S.length := by
  intro S
  induction S with
  | nil => intro exp _ _ _ _; rfl
  | cons v rest ih =>
      intro exp hs hlb hub h
      have hv256 : v < 256 := hub v (List.mem_cons_self v rest)
      have hexpv : exp ≤ v := hlb v (List.mem_cons_self v rest)
      have hexp256 : exp < 256 := lt_of_le_of_lt hexpv hv256
      have hmod : exp % 256 = exp := Nat.mod_eq_of_lt hexp256
      rw [nextFreeAux, hmod] at h
      rcases List.pairwise_cons.mp hs with ⟨hvlt, hrest⟩
      by_cases hve : v = exp
      · subst hve
        simp at h
        have hlb' : ∀ y ∈ rest, v + 1 ≤ y := fun y hy => hvlt y hy
        have hub' : ∀ y ∈ rest, y < 256 := fun y hy => hub y (List.mem_cons_of_mem v hy)
        have := ih (v + 1) hrest hlb' hub' h
        calc v :: rest = v :: List.range' (v + 1) rest.length := by rw [← this]
          _ = List.range' v (v :: rest).length := by
              rw [List.length_cons, List.range'_succ]

      · rw [if_pos hve] at h
        exact absurd h (by simp)

/-- A strictly sorted list of naturals below 256 has at most 256 elements. -/
theorem sorted_lt_length_le (S : List Nat) (hs : S.Pairwise (· < ·))
    (hub : ∀ y ∈ S, y < 256) : S.length ≤ 256 := by
  have hnd : S.Nodup := hs.imp (fun h => Nat.ne_of_lt h)
  calc S.length = S.toFinset.card := (List.toFinset_card_of_nodup hnd).symm
    _ ≤ (Finset.range 256).card :=
        Finset.card_le_card (fun x hx => Finset.mem_range.mpr (hub x (List.mem_toFinset.mp hx)))
    _ = 256 := Finset.card_range 256

/-- On a strictly sorted, 256-bounded id vector, `get_next_free_id` returns
the minimum of the complement: an id that is free while everything below it
is taken. -/
theorem get_next_free_id_some_spec (c : Cache) (hs : c.ids.Pairwise (· < ·))
    (hub : ∀ y ∈ c.ids, y < 256) (k : Nat) (h : c.get_next_free_id = some k) :
    k < 256 ∧ k ∉ c.ids ∧ ∀ m < k, m ∈ c.ids := by
  unfold Cache.get_next_free_id at h
  cases haux : nextFreeAux c.ids 0 with
  | some j =>
      rw [haux] at h
      simp [Option.orElse] at h
      subst h
      obtain ⟨_, h2, h3, h4⟩ :=
        nextFreeAux_some_spec c.ids 0 j hs (fun y _ => Nat.zero_le y) hub haux
      exact ⟨h2, h3, fun m hm => h4 m (Nat.zero_le m) hm⟩
  | none =>
      rw [haux] at h
      simp only [Option.orElse] at h
      have hrange := nextFreeAux_none_spec c.ids 0 hs (fun y _ => Nat.zero_le y) hub haux
      by_cases hlen : c.ids.length ≤ 255
      · rw [if_pos hlen] at h
        have hk : c.ids.length = k := by simpa using h
        subst hk
        refine ⟨by omega, ?_, ?_⟩
        · intro hmem
          rw [hrange] at hmem
          have := List.mem_range'_1.mp hmem
          simp only [List.length_range'] at this
          omega
        · intro m hm
          rw [hrange]
          exact List.mem_range'_1.mpr ⟨Nat.zero_le m, by omega⟩
      · rw [if_neg hlen] at h
        exact absurd h (by simp)

/-- On a strictly sorted, 256-bounded id vector, `get_next_free_id` fails
exactly when all 256 ids are taken. -/
theorem get_next_free_id_none_iff (c : Cache) (hs : c.ids.Pairwise (· < ·))
    (hub : ∀ y ∈ c.ids, y < 256) :
    c.get_next_free_id = none ↔ c.ids.length = 256 := by
  constructor
  · intro h
    unfold Cache.get_next_free_id at h
    cases haux : nextFreeAux c.ids 0 with
    | some j => rw [haux] at h; simp [Option.orElse] at h
    | none =>
        rw [haux] at h
        simp only [Option.orElse] at h
        by_cases hlen : c.ids.length ≤ 255
        · rw [if_pos hlen] at h; exact absurd h (by simp)
        · have := sorted_lt_length_le c.ids hs hub; omega
  · intro hlen
    cases haux : nextFreeAux c.ids 0 with
    | some k =>
        exfalso
        obtain ⟨_, h2, h3, _⟩ :=
          nextFreeAux_some_spec c.ids 0 k hs (fun y _ => Nat.zero_le y) hub haux
        have hnd : c.ids.Nodup := hs.imp (fun h => Nat.ne_of_lt h)
        have hsub : c.ids.toFinset ⊆ (Finset.range 256).erase k := by
          intro x hx
          have hxm := List.mem_toFinset.mp hx
          refine Finset.mem_erase.mpr ⟨?_, Finset.mem_range.mpr (hub x hxm)⟩
          intro hxk
          exact h3 (hxk ▸ hxm)
        have hcard := Finset.card_le_card hsub
        rw [List.toFinset_card_of_nodup hnd, hlen,
          Finset.card_erase_of_mem (Finset.mem_range.mpr h2), Finset.card_range] at hcard
        omega
    | none =>
        unfold Cache.get_next_free_id
        rw [haux]
        simp only [Option.orElse]
        rw [if_neg (by omega)]

/-- Removal from the sorted id vector yields a sublist. -/
theorem removeSorted_sublist (x : Nat) : ∀ l : List Nat, List.Sublist (removeSorted x l) l := by
  intro l
  induction l with
  | nil => simp [removeSorted]
  | cons y t ih =>
      rw [removeSorted]
      by_cases h : y = x
      · rw [if_pos h]; exact List.sublist_cons_self y t
      · rw [if_neg h]; exact List.Sublist.cons₂ y ih

/-- The cleanup drain only removes ids from the sorted vector. -/
theorem cleanupList_ids_sublist :
    ∀ (l : List SocketId) (c : Cache), List.Sublist (cleanupList l c).ids c.ids := by
  intro l
  induction l with
  | nil => intro c; exact List.Sublist.refl _
  | cons x t ih =>
      intro c
      exact (ih _).trans (removeSorted_sublist x.id c.ids)

/-- `Cache::cleanup` only removes ids from the sorted vector. -/
theorem cleanup_ids_sublist (c : Cache) : List.Sublist c.cleanup.ids c.ids :=
  cleanupList_ids_sublist c.expired _

/-- Claim C2 (confirmed): for every entry-cache state whose sorted id vector
is strictly sorted with ids below 256, `insert` with no supplied id — after
the cleanup pass it performs first — allocates the smallest id not among the
remaining live ids (everything below the allocated id is taken, the id itself
is free), and allocation fails with `NoFreeSlots` if and only if all 256 ids
are live after cleanup. -/
theorem insert_lowest_free_id (c : Cache) (now : Int) (addr : Nat)
    (hs : c.ids.Pairwise (· < ·)) (hub : ∀ y ∈ c.ids, y < 256) :
    (∀ s c', c.insert now none addr = (Except.ok s, c') →
        s.addr = addr ∧ s.id ∉ c.cleanup.ids ∧ ∀ m < s.id, m ∈ c.cleanup.ids)
    ∧ ((c.insert now none addr).1 = Except.error CacheError.noFreeSlots ↔
        c.cleanup.ids.length = 256) := by
  have hs1 : c.cleanup.ids.Pairwise (· < ·) :=
    List.Pairwise.sublist (cleanup_ids_sublist c) hs
  have hub1 : ∀ y ∈ c.cleanup.ids, y < 256 :=
    fun y hy => hub y ((cleanup_ids_sublist c).subset hy)
  cases hfree : c.cleanup.get_next_free_id with
  | none =>
      constructor
      · intro s c' h
        rw [Cache.insert] at h
        simp only [Option.orElse, hfree] at h
        exact absurd h (by simp)
      · rw [Cache.insert]
        simp only [Option.orElse, hfree]
        simp only [true_iff]
        exact (get_next_free_id_none_iff c.cleanup hs1 hub1).mp hfree
  | some id =>
      obtain ⟨h2, h3, h4⟩ := get_next_free_id_some_spec c.cleanup hs1 hub1 id hfree
      constructor
      · intro s c' h
        rw [Cache.insert] at h
        simp only [Option.orElse, hfree, Prod.mk.injEq, Except.ok.injEq] at h
        obtain ⟨hsid, -⟩ := h
        subst hsid
        exact ⟨rfl, h3, h4⟩
      · rw [Cache.insert]
        simp only [Option.orElse, hfree]
        constructor
        · intro h; exact absurd h (by simp)
        · intro hlen
          have : c.cleanup.get_next_free_id = none :=
            (get_next_free_id_none_iff c.cleanup hs1 hub1).mpr hlen
          rw [hfree] at this
          exact absurd this (by simp)

/-- Witness for `insert_lowest_free_id`: on the concrete cache with live ids
`{0, 1, 3}`, insert for the new peer `12` allocates id `2`. -/
theorem insert_lowest_free_id_witness :
    ((2 : Nat) ∉ cacheW.cleanup.ids ∧ 1 ∈ cacheW.cleanup.ids)
    ∧ ¬((cacheW.insert 0 none 12).1 = Except.error CacheError.noFreeSlots) := by
  have h := insert_lowest_free_id cacheW 0 12 (by decide) (by decide)
  have h1 := h.1 { id := 2, addr := 12 } (cacheW.insert 0 none 12).2 rfl
  exact ⟨⟨h1.2.1, h1.2.2 1 (by decide)⟩, fun he => absurd (h.2.mp he) (by decide)⟩

/-- Claim C4 (confirmed): expiry lookup semantics of the entry-side cache.
`get_by_id` and `get_by_addr` return `none` when the entry is absent (state
untouched) or expired (`now − last_access > timeout`); an expired entry is
added to the pending-expired set while every index and the entry store stay
unchanged (no revival); a successful lookup returns the entry with its
`last_access` cell set to `now`; consequently an entry with
`last_access + timeout < now` is never returned by either lookup. -/
theorem lookup_expiry_semantics (c : Cache) (now : Int) :
    (∀ i, alookup i c.by_id = none → c.get_by_id now i = (none, c))
    ∧ (∀ a, alookup a c.by_addr = none → c.get_by_addr now a = (none, c))
    ∧ (∀ i r e, alookup i c.by_id = some r → alookup r c.entries = some e →
        (c.timeout < now - e.last_access →
          c.get_by_id now i = (none, { c with expired := insertSet e.data c.expired }))
        ∧ (now - e.last_access ≤ c.timeout →
          c.get_by_id now i =
            (some e.data,
              { c with entries := aupdate r { e with last_access := now } c.entries }))
        ∧ (e.last_access + c.timeout < now → (c.get_by_id now i).1 = none))
    ∧ (∀ a r e, alookup a c.by_addr = some r → alookup r c.entries = some e →
        (c.timeout < now - e.last_access →
          c.get_by_addr now a = (none, { c with expired := insertSet e.data c.expired }))
        ∧ (now - e.last_access ≤ c.timeout →
          c.get_by_addr now a =
            (some e.data,
              { c with entries := aupdate r { e with last_access := now } c.entries }))
        ∧ (e.last_access + c.timeout < now → (c.get_by_addr now a).1 = none)) := by
  refine ⟨?_, ?_, ?_, ?_⟩
  · intro i h; rw [Cache.get_by_id, h]
  · intro a h; rw [Cache.get_by_addr, h]
  · intro i r e h1 h2
    refine ⟨?_, ?_, ?_⟩
    · intro hexp
      simp only [Cache.get_by_id, h1, Cache.prepare_entry, h2, if_pos hexp]
    · intro hfresh
      simp only [Cache.get_by_id, h1, Cache.prepare_entry, h2]
      rw [if_neg (by omega)]
    · intro hold
      simp only [Cache.get_by_id, h1, Cache.prepare_entry, h2]
      rw [if_pos (by omega)]
  · intro a r e h1 h2
    refine ⟨?_, ?_, ?_⟩
    · intro hexp
      simp only [Cache.get_by_addr, h1, Cache.prepare_entry, h2, if_pos hexp]
    · intro hfresh
      simp only [Cache.get_by_addr, h1, Cache.prepare_entry, h2]
      rw [if_neg (by omega)]
    · intro hold
      simp only [Cache.get_by_addr, h1, Cache.prepare_entry, h2]
      rw [if_pos (by omega)]

/-- Witness for `lookup_expiry_semantics` on the concrete cache `cacheW`
(entries last accessed at instant 0, timeout 100): at instant 300 the lookup
of id 0 returns `none` and only flags the entry; at instant 50 it succeeds and
renews `last_access`; id 7 is absent and leaves the state untouched. -/
theorem lookup_expiry_semantics_witness :
    cacheW.get_by_id 300 0 =
      (none, { cacheW with expired := insertSet { id := 0, addr := 10 } cacheW.expired })
    ∧ cacheW.get_by_id 50 0 =
        (some { id := 0, addr := 10 },
          { cacheW with
            entries :=
              aupdate 0 { last_access := 50, data := { id := 0, addr := 10 } } cacheW.entries })
    ∧ cacheW.get_by_id 300 7 = (none, cacheW) :=
  ⟨((lookup_expiry_semantics cacheW 300).2.2.1 0 0
      { last_access := 0, data := { id := 0, addr := 10 } } rfl rfl).1 (by decide),
   ((lookup_expiry_semantics cacheW 50).2.2.1 0 0
      { last_access := 0, data := { id := 0, addr := 10 } } rfl rfl).2.1 (by decide),
   (lookup_expiry_semantics cacheW 300).1 7 rfl⟩

/-! ### Target-side `iter` semantics (for C9) -/

/-- A successful association-list lookup means the key occurs. -/
theorem alookup_mem_keys {κ α : Type} [DecidableEq κ] (k : κ) (v : α) :
    ∀ l : List (κ × α), alookup k l = some v → k ∈ l.map Prod.fst := by
  intro l
  induction l with
  | nil => intro h; exact absurd h (by simp [alookup])
  | cons p t ih =>
      intro h
      rw [alookup] at h
      by_cases hk : p.1 = k
      · simp [hk]
      · rw [if_neg hk] at h
        simp [ih h]

/-- Behaviour of the `iter` traversal on each binding of a duplicate-free
binding list: live entries are yielded and renewed to `now`, expired entries
are left untouched and their ids marked; conversely everything yielded was a
live entry. -/
theorem serverIterGo_spec (tmo now : Int) :
    ∀ l : List (ConnId × ServerCacheEntryOuter), (l.map Prod.fst).Nodup →
      (∀ k e, alookup k l = some e →
        (now - e.last_access ≤ tmo →
          e.data ∈ (serverIterGo tmo now l).1
          ∧ alookup k (serverIterGo tmo now l).2.1 = some { e with last_access := now })
        ∧ (tmo < now - e.last_access →
          alookup k (serverIterGo tmo now l).2.1 = some e
          ∧ e.data.id ∈ (serverIterGo tmo now l).2.2))
      ∧ (∀ d, d ∈ (serverIterGo tmo now l).1 →
        ∃ k e, alookup k l = some e ∧ e.data = d ∧ now - e.last_access ≤ tmo) := by
  intro l
  induction l with
  | nil =>
      intro _
      constructor
      · intro k e h; exact absurd h (by simp [alookup])
      · intro d h; exact absurd h (by simp [serverIterGo])
  | cons p t ih =>
      obtain ⟨k0, e0⟩ := p
      intro hnd
      rw [List.map_cons] at hnd
      obtain ⟨hk0, hndt⟩ := List.nodup_cons.mp hnd
      obtain ⟨ih1, ih2⟩ := ih hndt
      rcases hgo : serverIterGo tmo now t with ⟨ys, m, marks⟩
      by_cases hx : tmo < now - e0.last_access
      · have hstep : serverIterGo tmo now ((k0, e0) :: t) =
            (ys, (k0, e0) :: m, e0.data.id :: marks) := by
          simp only [serverIterGo, serverPrepare, if_pos hx, hgo]
        constructor
        · intro k e h
          rw [alookup] at h
          by_cases hk : k0 = k
          · rw [if_pos hk] at h
            obtain rfl := hk
            obtain rfl : e0 = e := by simpa using h
            constructor
            · intro hlive; omega
            · intro _
              rw [hstep]
              exact ⟨by rw [alookup, if_pos rfl], List.mem_cons_self _ _⟩
          · rw [if_neg hk] at h
            obtain ⟨g1, g2⟩ := ih1 k e h
            rw [hgo] at g1 g2
            constructor
            · intro hlive
              obtain ⟨ga, gb⟩ := g1 hlive
              rw [hstep]
              exact ⟨ga, by rw [alookup, if_neg hk]; exact gb⟩
            · intro hexp
              obtain ⟨ga, gb⟩ := g2 hexp
              rw [hstep]
              exact ⟨by rw [alookup, if_neg hk]; exact ga, List.mem_cons_of_mem _ gb⟩
        · intro d hd
          rw [hstep] at hd
          obtain ⟨k, e, g1, g2, g3⟩ := ih2 d (by rw [hgo]; exact hd)
          refine ⟨k, e, ?_, g2, g3⟩
          rw [alookup]
          have hk : k0 ≠ k := by
            intro he
            exact hk0 (he ▸ alookup_mem_keys k e t g1)
          rw [if_neg hk]
          exact g1
      · have hstep : serverIterGo tmo now ((k0, e0) :: t) =
            ({ e0 with last_access := now }.data :: ys,
              (k0, { e0 with last_access := now }) :: m, marks) := by
          simp only [serverIterGo, serverPrepare, if_neg hx, hgo]
        constructor
        · intro k e h
          rw [alookup] at h
          by_cases hk : k0 = k
          · rw [if_pos hk] at h
            obtain rfl := hk
            obtain rfl : e0 = e := by simpa using h
            constructor
            · intro _
              rw [hstep]
              exact ⟨List.mem_cons_self _ _, by rw [alookup, if_pos rfl]⟩
            · intro hexp; omega
          · rw [if_neg hk] at h
            obtain ⟨g1, g2⟩ := ih1 k e h
            rw [hgo] at g1 g2
            constructor
            · intro hlive
              obtain ⟨ga, gb⟩ := g1 hlive
              rw [hstep]
              exact ⟨List.mem_cons_of_mem _ ga, by rw [alookup, if_neg hk]; exact gb⟩
            · intro hexp
              obtain ⟨ga, gb⟩ := g2 hexp
              rw [hstep]
              exact ⟨by rw [alookup, if_neg hk]; exact ga, gb⟩
        · intro d hd
          rw [hstep] at hd
          rcases List.mem_cons.mp hd with hd | hd
          · refine ⟨k0, e0, ?_, hd.symm ▸ rfl, by omega⟩
            rw [alookup, if_pos rfl]
          · obtain ⟨k, e, g1, g2, g3⟩ := ih2 d (by rw [hgo]; exact hd)
            refine ⟨k, e, ?_, g2, g3⟩
            rw [alookup]
            have hk : k0 ≠ k := by
              intro he
              exact hk0 (he ▸ alookup_mem_keys k e t g1)
            rw [if_neg hk]
            exact g1

/-- Membership is preserved and created by the fold that inserts the freshly
marked ids into the pending-expired set. -/
theorem foldl_insertSet_mem {α : Type} [DecidableEq α] :
    ∀ (l : List α) (s : List α) (x : α),
      (x ∈ s → x ∈ l.foldl (fun acc y => insertSet y acc) s)
      ∧ (x ∈ l → x ∈ l.foldl (fun acc y => insertSet y acc) s) := by
  intro l
  induction l with
  | nil =>
      intro s x
      exact ⟨fun h => h, fun h => absurd h (by simp)⟩
  | cons y t ih =>
      intro s x
      constructor
      · intro h
        exact (ih (insertSet y s) x).1 (by
          unfold insertSet
          by_cases hy : y ∈ s
          · rw [if_pos hy]; exact h
          · rw [if_neg hy]; exact List.mem_cons_of_mem _ h)
      · intro h
        rcases List.mem_cons.mp h with rfl | h
        · exact (ih (insertSet x s) x).1 (by
            unfold insertSet
            by_cases hy : x ∈ s
            · rw [if_pos hy]; exact hy
            · rw [if_neg hy]; exact List.mem_cons_self _ _)
        · exact (ih (insertSet y s) x).2 h

/-- Claim C9 (confirmed): every call to the target-side cache's `iter` — which
the target dispatcher performs on each loop iteration to build the poll set —
sets `last_access` to the current instant on every entry it yields, and it
yields exactly the entries not already past the timeout; an entry past the
timeout is left unrenewed and its id is added to the pending-expired set.
Hence an idle flow's entry is renewed by unrelated loop iterations, and is
only observed expired if a whole timeout elapses with no loop iteration in
between. -/
theorem server_iter_renews (c : ServerCache) (now : Int)
    (hnd : (c.by_id.map Prod.fst).Nodup) :
    (∀ k e, alookup k c.by_id = some e →
      (now - e.last_access ≤ c.timeout →
        e.data ∈ (c.iter now).1
        ∧ alookup k (c.iter now).2.by_id = some { e with last_access := now })
      ∧ (c.timeout < now - e.last_access →
        alookup k (c.iter now).2.by_id = some e
        ∧ e.data.id ∈ (c.iter now).2.expired))
    ∧ (∀ d, d ∈ (c.iter now).1 →
      ∃ k e, alookup k c.by_id = some e ∧ e.data = d ∧ now - e.last_access ≤ c.timeout) := by
  obtain ⟨hgo1, hgo2⟩ := serverIterGo_spec c.timeout now c.by_id hnd
  rcases hgo : serverIterGo c.timeout now c.by_id with ⟨ys, m, marks⟩
  have hiter : c.iter now =
      (ys, { c with by_id := m, expired := marks.foldl (fun s x => insertSet x s) c.expired }) := by
    simp only [ServerCache.iter, hgo]
  constructor
  · intro k e h
    obtain ⟨g1, g2⟩ := hgo1 k e h
    rw [hgo] at g1 g2
    constructor
    · intro hlive
      obtain ⟨ga, gb⟩ := g1 hlive
      rw [hiter]
      exact ⟨ga, gb⟩
    · intro hexp
      obtain ⟨ga, gb⟩ := g2 hexp
      rw [hiter]
      exact ⟨ga, (foldl_insertSet_mem marks c.expired e.data.id).2 gb⟩
  · intro d hd
    rw [hiter] at hd
    exact hgo2 d (by rw [hgo]; exact hd)

/-- Witness for `server_iter_renews`: a concrete two-entry target cache at
instant 50 (timeout 100): the entry last accessed at 0 is yielded and renewed
to 50; the entry last accessed at −500 is not renewed and its id is flagged. -/
theorem server_iter_renews_witness :
    ({ id := { fromAddr := 5, cid := 0 }, socket := 77 } : ServerCacheEntry) ∈
      (({ timeout := 100,
          by_id :=
            [({ fromAddr := 5, cid := 0 },
              { last_access := 0, data := { id := { fromAddr := 5, cid := 0 }, socket := 77 } }),
             ({ fromAddr := 5, cid := 1 },
              { last_access := -500, data := { id := { fromAddr := 5, cid := 1 }, socket := 78 } })],
          expired := [] } : ServerCache).iter 50).1
    ∧ ({ fromAddr := 5, cid := 1 } : ConnId) ∈
      (({ timeout := 100,
          by_id :=
            [({ fromAddr := 5, cid := 0 },
              { last_access := 0, data := { id := { fromAddr := 5, cid := 0 }, socket := 77 } }),
             ({ fromAddr := 5, cid := 1 },
              { last_access := -500, data := { id := { fromAddr := 5, cid := 1 }, socket := 78 } })],
          expired := [] } : ServerCache).iter 50).2.expired :=
  ⟨((server_iter_renews
      { timeout := 100,
        by_id :=
          [({ fromAddr := 5, cid := 0 },
            { last_access := 0, data := { id := { fromAddr := 5, cid := 0 }, socket := 77 } }),
           ({ fromAddr := 5, cid := 1 },
            { last_access := -500, data := { id := { fromAddr := 5, cid := 1 }, socket := 78 } })],
        expired := [] } 50 (by decide)).1 { fromAddr := 5, cid := 0 }
      { last_access := 0, data := { id := { fromAddr := 5, cid := 0 }, socket := 77 } }
      rfl).1 (by decide) |>.1,
   ((server_iter_renews
      { timeout := 100,
        by_id :=
          [({ fromAddr := 5, cid := 0 },
            { last_access := 0, data := { id := { fromAddr := 5, cid := 0 }, socket := 77 } }),
           ({ fromAddr := 5, cid := 1 },
            { last_access := -500, data := { id := { fromAddr := 5, cid := 1 }, socket := 78 } })],
        expired := [] } 50 (by decide)).1 { fromAddr := 5, cid := 1 }
      { last_access := -500, data := { id := { fromAddr := 5, cid := 1 }, socket := 78 } }
      rfl).2 (by decide) |>.2⟩

/-! ### Association-list lemmas (for the entry-cache invariant) -/

theorem alookup_aupdate_self {κ α : Type} [DecidableEq κ] (k : κ) (v : α) :
    ∀ l : List (κ × α), alookup k (aupdate k v l) = some v := by
  intro l
  induction l with
  | nil => simp [aupdate, alookup]
  | cons p t ih =>
      rw [aupdate]
      by_cases h : p.1 = k
      · rw [if_pos h, alookup, if_pos rfl]
      · rw [if_neg h, alookup, if_neg h]
        exact ih

theorem alookup_aupdate_other {κ α : Type} [DecidableEq κ] {k k' : κ} (v : α)
    (hne : k' ≠ k) : ∀ l : List (κ × α), alookup k' (aupdate k v l) = alookup k' l := by
  intro l
  induction l with
  | nil =>
      simp [aupdate, alookup]
      exact fun h => hne h.symm
  | cons p t ih =>
      rw [aupdate]
      by_cases h : p.1 = k
      · rw [if_pos h, alookup, if_neg (fun hk => hne hk.symm), alookup, if_neg (h ▸ fun hk => hne hk.symm)]
      · rw [if_neg h, alookup, alookup]
        by_cases h2 : p.1 = k'
        · rw [if_pos h2, if_pos h2]
        · rw [if_neg h2, if_neg h2]
          exact ih

theorem alookup_aremove_other {κ α : Type} [DecidableEq κ] {k k' : κ}
    (hne : k' ≠ k) : ∀ l : List (κ × α), alookup k' (aremove k l) = alookup k' l := by
  intro l
  induction l with
  | nil => simp [aremove]
  | cons p t ih =>
      rw [aremove]
      by_cases h : p.1 = k
      · rw [if_pos h, alookup, if_neg (h ▸ fun hk => hne hk.symm)]
      · rw [if_neg h, alookup, alookup]
        by_cases h2 : p.1 = k'
        · rw [if_pos h2, if_pos h2]
        · rw [if_neg h2, if_neg h2]
          exact ih

theorem alookup_none_of_not_mem_keys {κ α : Type} [DecidableEq κ] {k : κ} :
    ∀ {l : List (κ × α)}, k ∉ l.map Prod.fst → alookup k l = none := by
  intro l
  induction l with
  | nil => intro _; rfl
  | cons p t ih =>
      intro h
      rw [List.map_cons] at h
      rw [alookup, if_neg (fun he => h (by simp [he]))]
      exact ih (fun hm => h (List.mem_cons_of_mem _ hm))

theorem alookup_aremove_self {κ α : Type} [DecidableEq κ] (k : κ) :
    ∀ l : List (κ × α), (l.map Prod.fst).Nodup → alookup k (aremove k l) = none := by
  intro l
  induction l with
  | nil => intro _; rfl
  | cons p t ih =>
      intro hnd
      rw [List.map_cons] at hnd
      obtain ⟨hp, hndt⟩ := List.nodup_cons.mp hnd
      rw [aremove]
      by_cases h : p.1 = k
      · rw [if_pos h]
        exact alookup_none_of_not_mem_keys (h ▸ hp)
      · rw [if_neg h, alookup, if_neg h]
        exact ih hndt

theorem aremove_keys_sublist {κ α : Type} [DecidableEq κ] (k : κ) :
    ∀ l : List (κ × α), List.Sublist ((aremove k l).map Prod.fst) (l.map Prod.fst) := by
  intro l
  induction l with
  | nil => simp [aremove]
  | cons p t ih =>
      rw [aremove]
      by_cases h : p.1 = k
      · rw [if_pos h, List.map_cons]
        exact List.sublist_cons_self _ _
      · rw [if_neg h, List.map_cons, List.map_cons]
        exact List.Sublist.cons₂ _ ih

theorem nodup_aremove {κ α : Type} [DecidableEq κ] (k : κ) (l : List (κ × α))
    (h : (l.map Prod.fst).Nodup) : ((aremove k l).map Prod.fst).Nodup :=
  List.Nodup.sublist (aremove_keys_sublist k l) h

theorem mem_aupdate_keys {κ α : Type} [DecidableEq κ] {k : κ} {v : α} :
    ∀ {l : List (κ × α)} {q : κ × α}, q ∈ aupdate k v l →
      q.1 ∈ l.map Prod.fst ∨ q.1 = k := by
  intro l
  induction l with
  | nil =>
      intro q hq
      simp [aupdate] at hq
      simp [hq]
  | cons w s ih =>
      intro q hq
      rw [aupdate] at hq
      by_cases hw : w.1 = k
      · rw [if_pos hw] at hq
        rcases List.mem_cons.mp hq with rfl | hq
        · right; rfl
        · left
          rw [List.map_cons]
          exact List.mem_cons_of_mem _ (List.mem_map.mpr ⟨q, hq, rfl⟩)
      · rw [if_neg hw] at hq
        rcases List.mem_cons.mp hq with rfl | hq
        · left
          rw [List.map_cons]
          exact List.mem_cons_self _ _
        · rcases ih hq with hm | hm
          · left
            rw [List.map_cons]
            exact List.mem_cons_of_mem _ hm
          · right; exact hm

theorem nodup_aupdate {κ α : Type} [DecidableEq κ] (k : κ) (v : α) :
    ∀ l : List (κ × α), (l.map Prod.fst).Nodup → ((aupdate k v l).map Prod.fst).Nodup := by
  intro l
  induction l with
  | nil => intro _; simp [aupdate]
  | cons p t ih =>
      intro hnd
      rw [List.map_cons] at hnd
      obtain ⟨hp, hndt⟩ := List.nodup_cons.mp hnd
      rw [aupdate]
      by_cases h : p.1 = k
      · rw [if_pos h, List.map_cons]
        exact List.nodup_cons.mpr ⟨h ▸ hp, hndt⟩
      · rw [if_neg h, List.map_cons]
        refine List.nodup_cons.mpr ⟨?_, ih hndt⟩
        intro hmem
        rcases List.mem_map.mp hmem with ⟨q, hq, hq2⟩
        rcases mem_aupdate_keys hq with hm | hm
        · exact hp (hq2 ▸ hm)
        · exact h (hq2 ▸ hm)

theorem alookup_isSome_aupdate {κ α : Type} [DecidableEq κ] (i k : κ) (v : α)
    (l : List (κ × α)) :
    (alookup i (aupdate k v l)).isSome ↔ i = k ∨ (alookup i l).isSome := by
  by_cases h : i = k
  · subst h
    simp [alookup_aupdate_self]
  · rw [alookup_aupdate_other v h l]
    simp [h]

theorem mem_insertSet {α : Type} [DecidableEq α] (x y : α) (s : List α) :
    x ∈ insertSet y s ↔ x = y ∨ x ∈ s := by
  unfold insertSet
  by_cases h : y ∈ s
  · rw [if_pos h]
    constructor
    · intro hx; exact Or.inr hx
    · intro hx; rcases hx with rfl | hx
      · exact h
      · exact hx
  · rw [if_neg h]
    exact List.mem_cons

theorem mem_insertSorted (x : Nat) :
    ∀ (l : List Nat) (a : Nat), a ∈ insertSorted x l ↔ a = x ∨ a ∈ l := by
  intro l
  induction l with
  | nil => intro a; simp [insertSorted]
  | cons y t ih =>
      intro a
      rw [insertSorted]
      by_cases h : x ≤ y
      · rw [if_pos h]
        exact List.mem_cons
      · rw [if_neg h]
        rw [List.mem_cons, ih a, List.mem_cons]
        tauto

theorem pairwise_insertSorted (x : Nat) :
    ∀ l : List Nat, l.Pairwise (· < ·) → x ∉ l →
      (insertSorted x l).Pairwise (· < ·) := by
  intro l
  induction l with
  | nil => intro _ _; simp [insertSorted]
  | cons y t ih =>
      intro hs hx
      obtain ⟨hy, ht⟩ := List.pairwise_cons.mp hs
      rw [insertSorted]
      by_cases h : x ≤ y
      · rw [if_pos h]
        have hxy : x < y := lt_of_le_of_ne h (fun he => hx (he ▸ List.mem_cons_self y t))
        refine List.pairwise_cons.mpr ⟨?_, hs⟩
        intro b hb
        rcases List.mem_cons.mp hb with rfl | hb
        · exact hxy
        · exact lt_trans hxy (hy b hb)
      · rw [if_neg h]
        refine List.pairwise_cons.mpr ⟨?_, ih ht (fun hm => hx (List.mem_cons_of_mem _ hm))⟩
        intro b hb
        rcases (mem_insertSorted x t b).mp hb with rfl | hb
        · omega
        · exact hy b hb

theorem mem_removeSorted (x : Nat) :
    ∀ l : List Nat, l.Nodup → ∀ a, a ∈ removeSorted x l ↔ a ∈ l ∧ a ≠ x := by
  intro l
  induction l with
  | nil => intro _ a; simp [removeSorted]
  | cons y t ih =>
      intro hnd a
      obtain ⟨hy, hndt⟩ := List.nodup_cons.mp hnd
      rw [removeSorted]
      by_cases h : y = x
      · subst h
        rw [if_pos rfl]
        constructor
        · intro ha
          exact ⟨List.mem_cons_of_mem _ ha, fun he => hy (he ▸ ha)⟩
        · intro ⟨ha, hne⟩
          rcases List.mem_cons.mp ha with rfl | ha
          · exact absurd rfl hne
          · exact ha
      · rw [if_neg h, List.mem_cons, ih hndt a, List.mem_cons]
        constructor
        · intro ha
          rcases ha with rfl | ⟨ha, hne⟩
          · exact ⟨Or.inl rfl, fun he => h (he ▸ rfl)⟩
          · exact ⟨Or.inr ha, hne⟩
        · intro ⟨ha, hne⟩
          rcases ha with rfl | ha
          · exact Or.inl rfl
          · exact Or.inr ⟨ha, hne⟩

/-! ### Cleanup preserves the invariant -/

theorem aremove_lookup_some {κ α : Type} [DecidableEq κ] {k k' : κ} {v : α}
    {l : List (κ × α)} (hnd : (l.map Prod.fst).Nodup)
    (h : alookup k (aremove k' l) = some v) : alookup k l = some v := by
  by_cases hk : k = k'
  · subst hk
    rw [alookup_aremove_self k l hnd] at h
    exact absurd h (by simp)
  · rw [alookup_aremove_other hk l] at h
    exact h

theorem cleanupList_fields :
    ∀ (l : List SocketId) (c : Cache),
      (cleanupList l c).expired = c.expired ∧ (cleanupList l c).entries = c.entries
      ∧ (cleanupList l c).fresh = c.fresh ∧ (cleanupList l c).timeout = c.timeout := by
  intro l
  induction l with
  | nil => intro c; exact ⟨rfl, rfl, rfl, rfl⟩
  | cons x t ih => intro c; exact ih _

theorem cleanup_expired (c : Cache) : c.cleanup.expired = [] :=
  (cleanupList_fields c.expired _).1

/-- One drain step of `cleanup` preserves the structural invariant, provided
the drained mark is sound. -/
theorem cleanup_step_core (c : Cache) (x : SocketId) (hc : CoreInv c) (hx : ExpOk c x) :
    CoreInv
      { c with
        ids := removeSorted x.id c.ids,
        by_id := aremove x.id c.by_id,
        by_addr := aremove x.addr c.by_addr } := by
  have hndids : c.ids.Nodup := hc.idsSorted.imp (fun h => Nat.ne_of_lt h)
  refine ⟨?_, ?_, ?_, ?_, ?_, ?_, ?_, ?_⟩
  · exact List.Pairwise.sublist (removeSorted_sublist x.id c.ids) hc.idsSorted
  · intro i hi
    exact hc.idsLt i ((removeSorted_sublist x.id c.ids).subset hi)
  · exact nodup_aremove x.id c.by_id hc.byIdNodup
  · exact nodup_aremove x.addr c.by_addr hc.byAddrNodup
  · intro i
    rw [mem_removeSorted x.id c.ids hndids i]
    by_cases hik : i = x.id
    · subst hik
      rw [alookup_aremove_self x.id c.by_id hc.byIdNodup]
      simp
    · rw [alookup_aremove_other hik c.by_id]
      rw [hc.idsIff i]
      simp [hik]
  · intro i r h
    by_cases hik : i = x.id
    · subst hik
      rw [alookup_aremove_self x.id c.by_id hc.byIdNodup] at h
      exact absurd h (by simp)
    · rw [alookup_aremove_other hik c.by_id] at h
      obtain ⟨e, he, hid, haddr⟩ := hc.byIdOk i r h
      refine ⟨e, he, hid, ?_⟩
      have hax : e.data.addr ≠ x.addr := by
        intro hax
        obtain ⟨e', he', hd⟩ := hx.2 r (hax ▸ haddr)
        rw [he] at he'
        obtain rfl : e = e' := by simpa using he'
        exact hik (hid ▸ congrArg SocketId.id hd)
      rw [alookup_aremove_other hax c.by_addr]
      exact haddr
  · intro a r h
    by_cases hak : a = x.addr
    · subst hak
      rw [alookup_aremove_self x.addr c.by_addr hc.byAddrNodup] at h
      exact absurd h (by simp)
    · rw [alookup_aremove_other hak c.by_addr] at h
      obtain ⟨e, he, haddr, hid⟩ := hc.byAddrOk a r h
      refine ⟨e, he, haddr, ?_⟩
      have hix : e.data.id ≠ x.id := by
        intro hix
        obtain ⟨e', he', hd⟩ := hx.1 r (hix ▸ hid)
        rw [he] at he'
        obtain rfl : e = e' := by simpa using he'
        exact hak (haddr ▸ congrArg SocketId.addr hd)
      rw [alookup_aremove_other hix c.by_id]
      exact hid
  · exact hc.entriesFresh

/-- One drain step of `cleanup` keeps every remaining mark sound. -/
theorem cleanup_step_expok (c : Cache) (x y : SocketId) (hc : CoreInv c) (hy : ExpOk c y) :
    ExpOk
      { c with
        ids := removeSorted x.id c.ids,
        by_id := aremove x.id c.by_id,
        by_addr := aremove x.addr c.by_addr } y := by
  constructor
  · intro r h
    exact hy.1 r (aremove_lookup_some hc.byIdNodup h)
  · intro r h
    exact hy.2 r (aremove_lookup_some hc.byAddrNodup h)

/-- The whole drain of `cleanup` preserves the structural invariant. -/
theorem cleanupList_core :
    ∀ (l : List SocketId) (c : Cache), CoreInv c → (∀ x ∈ l, ExpOk c x) →
      CoreInv (cleanupList l c) := by
  intro l
  induction l with
  | nil => intro c hc _; exact hc
  | cons x t ih =>
      intro c hc hall
      rw [cleanupList]
      refine ih _ (cleanup_step_core c x hc (hall x (List.mem_cons_self x t))) ?_
      intro y hy
      exact cleanup_step_expok c x y hc (hall y (List.mem_cons_of_mem x hy))

/-- `Cache::cleanup` preserves the invariant; the pending-expired set is empty
afterwards. -/
theorem cleanup_inv (c : Cache) (hc : Inv c) : Inv c.cleanup := by
  have hcore : CoreInv { c with expired := ([] : List SocketId) } :=
    ⟨hc.idsSorted, hc.idsLt, hc.byIdNodup, hc.byAddrNodup, hc.idsIff,
      hc.byIdOk, hc.byAddrOk, hc.entriesFresh⟩
  have hall : ∀ x ∈ c.expired, ExpOk { c with expired := ([] : List SocketId) } x :=
    fun x hx => hc.expiredOk x hx
  refine ⟨cleanupList_core c.expired _ hcore hall, ?_⟩
  intro x hx
  rw [cleanup_expired c] at hx
  exact absurd hx (by simp)

/-- Lookups that survive the drain were present before it. -/
theorem cleanupList_by_addr_mono :
    ∀ (l : List SocketId) (c : Cache), (c.by_addr.map Prod.fst).Nodup →
      ∀ a r, alookup a (cleanupList l c).by_addr = some r → alookup a c.by_addr = some r := by
  intro l
  induction l with
  | nil => intro c _ a r h; exact h
  | cons x t ih =>
      intro c hnd a r h
      rw [cleanupList] at h
      exact aremove_lookup_some hnd (ih _ (nodup_aremove x.addr c.by_addr hnd) a r h)

/-- Every address drained by `cleanup` is unbound afterwards. -/
theorem cleanupList_removes_addr :
    ∀ (l : List SocketId) (c : Cache), (c.by_addr.map Prod.fst).Nodup →
      ∀ x ∈ l, alookup x.addr (cleanupList l c).by_addr = none := by
  intro l
  induction l with
  | nil => intro c _ x hx; exact absurd hx (by simp)
  | cons y t ih =>
      intro c hnd x hx
      rw [cleanupList]
      have hnd' := nodup_aremove y.addr c.by_addr hnd
      rcases List.mem_cons.mp hx with rfl | hx
      · cases hfin : alookup x.addr (cleanupList t
            { c with
              ids := removeSorted x.id c.ids,
              by_id := aremove x.id c.by_id,
              by_addr := aremove x.addr c.by_addr }).by_addr with
        | none => rfl
        | some r =>
            have := cleanupList_by_addr_mono t _ hnd' x.addr r hfin
            rw [alookup_aremove_self x.addr c.by_addr hnd] at this
            exact absurd this (by simp)
      · exact ih _ hnd' x hx

/-! ### Lookups and inserts preserve the invariant -/

/-- `prepare_entry` on an entry referenced by either index preserves the
invariant: the expired branch only adds a sound mark, the renewal branch only
moves `last_access`. -/
theorem prepare_entry_inv (c : Cache) (now : Int) (r : Nat) (hc : Inv c)
    (href : (∃ i, alookup i c.by_id = some r) ∨ (∃ a, alookup a c.by_addr = some r)) :
    Inv (c.prepare_entry now r).2 := by
  rw [Cache.prepare_entry]
  cases hent : alookup r c.entries with
  | none => exact hc
  | some e =>
      dsimp only
      have hexpok : ExpOk c e.data := by
        rcases href with ⟨i, hi⟩ | ⟨a, ha⟩
        · obtain ⟨e', he', hid, haddr⟩ := hc.byIdOk i r hi
          rw [hent] at he'
          obtain rfl : e = e' := by simpa using he'
          constructor
          · intro r' h'
            rw [hid] at h'
            rw [hi] at h'
            obtain rfl : r = r' := by simpa using h'
            exact ⟨e, hent, rfl⟩
          · intro r' h'
            rw [haddr] at h'
            obtain rfl : r = r' := by simpa using h'
            exact ⟨e, hent, rfl⟩
        · obtain ⟨e', he', haddr, hid⟩ := hc.byAddrOk a r ha
          rw [hent] at he'
          obtain rfl : e = e' := by simpa using he'
          constructor
          · intro r' h'
            rw [hid] at h'
            obtain rfl : r = r' := by simpa using h'
            exact ⟨e, hent, rfl⟩
          · intro r' h'
            rw [haddr] at h'
            rw [ha] at h'
            obtain rfl : r = r' := by simpa using h'
            exact ⟨e, hent, rfl⟩
      by_cases hexp : c.timeout < now - e.last_access
      · rw [if_pos hexp]
        refine ⟨⟨hc.idsSorted, hc.idsLt, hc.byIdNodup, hc.byAddrNodup, hc.idsIff,
          hc.byIdOk, hc.byAddrOk, hc.entriesFresh⟩, ?_⟩
        intro x hx
        rcases (mem_insertSet x e.data c.expired).mp hx with rfl | hx
        · exact hexpok
        · exact hc.expiredOk x hx
      · rw [if_neg hexp]
        refine ⟨⟨hc.idsSorted, hc.idsLt, hc.byIdNodup, hc.byAddrNodup, hc.idsIff,
          ?_, ?_, ?_⟩, ?_⟩
        · intro i' r' h'
          obtain ⟨e', he', hid, haddr⟩ := hc.byIdOk i' r' h'
          by_cases hr : r' = r
          · subst hr
            rw [hent] at he'
            obtain rfl : e = e' := by simpa using he'
            exact ⟨{ e with last_access := now },
              alookup_aupdate_self r' _ c.entries, hid, haddr⟩
          · exact ⟨e', by rw [alookup_aupdate_other _ hr c.entries]; exact he', hid, haddr⟩
        · intro a' r' h'
          obtain ⟨e', he', haddr, hid⟩ := hc.byAddrOk a' r' h'
          by_cases hr : r' = r
          · subst hr
            rw [hent] at he'
            obtain rfl : e = e' := by simpa using he'
            exact ⟨{ e with last_access := now },
              alookup_aupdate_self r' _ c.entries, haddr, hid⟩
          · exact ⟨e', by rw [alookup_aupdate_other _ hr c.entries]; exact he', haddr, hid⟩
        · intro r' h'
          rcases (alookup_isSome_aupdate r' r _ c.entries).mp h' with rfl | h'
          · exact hc.entriesFresh r' (by rw [hent]; rfl)
          · exact hc.entriesFresh r' h'
        · intro x hx
          obtain ⟨h1, h2⟩ := hc.expiredOk x hx
          constructor
          · intro r' h'
            obtain ⟨e', he', hd⟩ := h1 r' h'
            by_cases hr : r' = r
            · subst hr
              rw [hent] at he'
              obtain rfl : e = e' := by simpa using he'
              exact ⟨{ e with last_access := now },
                alookup_aupdate_self r' _ c.entries, hd⟩
            · exact ⟨e', by rw [alookup_aupdate_other _ hr c.entries]; exact he', hd⟩
          · intro r' h'
            obtain ⟨e', he', hd⟩ := h2 r' h'
            by_cases hr : r' = r
            · subst hr
              rw [hent] at he'
              obtain rfl : e = e' := by simpa using he'
              exact ⟨{ e with last_access := now },
                alookup_aupdate_self r' _ c.entries, hd⟩
            · exact ⟨e', by rw [alookup_aupdate_other _ hr c.entries]; exact he', hd⟩

/-- `get_by_id` preserves the invariant. -/
theorem get_by_id_inv (c : Cache) (now : Int) (i : Nat) (hc : Inv c) :
    Inv (c.get_by_id now i).2 := by
  rw [Cache.get_by_id]
  cases h : alookup i c.by_id with
  | none => exact hc
  | some r => exact prepare_entry_inv c now r hc (Or.inl ⟨i, h⟩)

/-- `get_by_addr` preserves the invariant. -/
theorem get_by_addr_inv (c : Cache) (now : Int) (a : Nat) (hc : Inv c) :
    Inv (c.get_by_addr now a).2 := by
  rw [Cache.get_by_addr]
  cases h : alookup a c.by_addr with
  | none => exact hc
  | some r => exact prepare_entry_inv c now r hc (Or.inr ⟨a, h⟩)

/-- `insert` with no supplied id preserves the invariant, provided the
address is unbound after the cleanup pass (which is how the dispatcher
reaches `insert`: through `get_or_insert_by_addr` after a failed lookup). -/
theorem insert_none_inv (c : Cache) (now : Int) (addr : Nat) (hc : Inv c)
    (hpre : alookup addr c.cleanup.by_addr = none) :
    Inv (c.insert now none addr).2 := by
  have hc1 : Inv c.cleanup := cleanup_inv c hc
  rw [Cache.insert]
  simp only [Option.orElse]
  cases hfree : c.cleanup.get_next_free_id with
  | none => exact hc1
  | some id =>
      dsimp only
      obtain ⟨hid256, hidni, -⟩ :=
        get_next_free_id_some_spec c.cleanup hc1.idsSorted hc1.idsLt id hfree
      have hById_none : alookup id c.cleanup.by_id = none := by
        cases hbid : alookup id c.cleanup.by_id with
        | none => rfl
        | some r =>
            exact absurd ((hc1.idsIff id).mpr (by rw [hbid]; rfl)) hidni
      rw [if_neg hidni]
      refine ⟨⟨?_, ?_, ?_, ?_, ?_, ?_, ?_, ?_⟩, ?_⟩
      · exact pairwise_insertSorted id c.cleanup.ids hc1.idsSorted hidni
      · intro y hy
        rcases (mem_insertSorted id c.cleanup.ids y).mp hy with rfl | hy
        · exact hid256
        · exact hc1.idsLt y hy
      · exact nodup_aupdate id c.cleanup.fresh c.cleanup.by_id hc1.byIdNodup
      · exact nodup_aupdate addr c.cleanup.fresh c.cleanup.by_addr hc1.byAddrNodup
      · intro i
        rw [mem_insertSorted id c.cleanup.ids i,
          alookup_isSome_aupdate i id c.cleanup.fresh c.cleanup.by_id, hc1.idsIff i]
      · intro i r h
        by_cases hik : i = id
        · subst hik
          rw [alookup_aupdate_self i c.cleanup.fresh c.cleanup.by_id] at h
          obtain rfl : c.cleanup.fresh = r := by simpa using h
          refine ⟨{ last_access := now, data := { id := i, addr } },
            alookup_aupdate_self c.cleanup.fresh _ c.cleanup.entries, rfl, ?_⟩
          exact alookup_aupdate_self addr c.cleanup.fresh c.cleanup.by_addr
        · rw [alookup_aupdate_other _ hik c.cleanup.by_id] at h
          obtain ⟨e, he, hid2, haddr⟩ := hc1.byIdOk i r h
          have hrf : r ≠ c.cleanup.fresh := by
            intro hr
            exact absurd (hc1.entriesFresh r (by rw [he]; rfl)) (by omega)
          refine ⟨e, by rw [alookup_aupdate_other _ hrf c.cleanup.entries]; exact he, hid2, ?_⟩
          have hea : e.data.addr ≠ addr := by
            intro hea
            rw [hea, hpre] at haddr
            exact absurd haddr (by simp)
          rw [alookup_aupdate_other _ hea c.cleanup.by_addr]
          exact haddr
      · intro a r h
        by_cases hak : a = addr
        · subst hak
          rw [alookup_aupdate_self a c.cleanup.fresh c.cleanup.by_addr] at h
          obtain rfl : c.cleanup.fresh = r := by simpa using h
          refine ⟨{ last_access := now, data := { id, addr := a } },
            alookup_aupdate_self c.cleanup.fresh _ c.cleanup.entries, rfl, ?_⟩
          exact alookup_aupdate_self id c.cleanup.fresh c.cleanup.by_id
        · rw [alookup_aupdate_other _ hak c.cleanup.by_addr] at h
          obtain ⟨e, he, haddr2, hid2⟩ := hc1.byAddrOk a r h
          have hrf : r ≠ c.cleanup.fresh := by
            intro hr
            exact absurd (hc1.entriesFresh r (by rw [he]; rfl)) (by omega)
          refine ⟨e, by rw [alookup_aupdate_other _ hrf c.cleanup.entries]; exact he, haddr2, ?_⟩
          have hei : e.data.id ≠ id := by
            intro hei
            rw [hei, hById_none] at hid2
            exact absurd hid2 (by simp)
          rw [alookup_aupdate_other _ hei c.cleanup.by_id]
          exact hid2
      · intro r h
        rcases (alookup_isSome_aupdate r c.cleanup.fresh _ c.cleanup.entries).mp h with rfl | h
        · exact Nat.lt_succ_self _
        · exact Nat.lt_succ_of_lt (hc1.entriesFresh r h)
      · intro x hx
        rw [cleanup_expired c] at hx
        exact absurd hx (by simp)

/-- `get_or_insert_by_addr` preserves the invariant. -/
theorem goi_inv (c : Cache) (now : Int) (addr : Nat) (hc : Inv c) :
    Inv (c.get_or_insert_by_addr now addr).2 := by
  rw [Cache.get_or_insert_by_addr]
  rcases hg : c.get_by_addr now addr with ⟨res, c1⟩
  have hc1 : Inv c1 := by
    have := get_by_addr_inv c now addr hc
    rw [hg] at this
    exact this
  cases res with
  | some s => exact hc1
  | none =>
      simp only
      refine insert_none_inv c1 now addr hc1 ?_
      rw [Cache.get_by_addr] at hg
      cases hba : alookup addr c.by_addr with
      | none =>
          rw [hba] at hg
          obtain rfl : c = c1 := by simpa using congrArg Prod.snd hg
          cases hfin : alookup addr c.cleanup.by_addr with
          | none => rfl
          | some r =>
              have hmono := cleanupList_by_addr_mono c.expired
                { c with expired := ([] : List SocketId) } hc.byAddrNodup addr r hfin
              rw [hba] at hmono
              exact absurd hmono (by simp)
      | some r =>
          rw [hba] at hg
          dsimp only at hg
          rw [Cache.prepare_entry] at hg
          cases hent : alookup r c.entries with
          | none =>
              obtain ⟨e, he, -, -⟩ := hc.byAddrOk addr r hba
              rw [hent] at he
              exact absurd he (by simp)
          | some e =>
              rw [hent] at hg
              dsimp only at hg
              obtain ⟨e', he', haddr, -⟩ := hc.byAddrOk addr r hba
              rw [hent] at he'
              obtain rfl : e = e' := by simpa using he'
              by_cases hexp : c.timeout < now - e.last_access
              · rw [if_pos hexp] at hg
                obtain rfl : { c with expired := insertSet e.data c.expired } = c1 :=
                  congrArg Prod.snd hg
                have hxmem : e.data ∈ insertSet e.data c.expired :=
                  (mem_insertSet e.data e.data c.expired).mpr (Or.inl rfl)
                have hrm := cleanupList_removes_addr (insertSet e.data c.expired)
                  { c with expired := ([] : List SocketId) } hc.byAddrNodup e.data hxmem
                rw [haddr] at hrm
                exact hrm
              · rw [if_neg hexp] at hg
                exact absurd (congrArg Prod.fst hg) (by simp)

/-- Every state the entry dispatcher can reach satisfies the invariant. -/
theorem Reach_inv {t : Int} {c : Cache} (hc : Reach t c) : Inv c := by
  induction hc with
  | init =>
      refine ⟨⟨?_, ?_, ?_, ?_, ?_, ?_, ?_, ?_⟩, ?_⟩
      · exact List.Pairwise.nil
      · intro i hi; exact absurd hi (by simp [Cache.new])
      · simp [Cache.new]
      · simp [Cache.new]
      · intro i; simp [Cache.new, alookup]
      · intro i r h; exact absurd h (by simp [Cache.new, alookup])
      · intro a r h; exact absurd h (by simp [Cache.new, alookup])
      · intro r h; exact absurd h (by simp [Cache.new, alookup])
      · intro x hx; exact absurd hx (by simp [Cache.new])
  | goi now addr _ ih => exact goi_inv _ now addr ih
  | gid now i _ ih => exact get_by_id_inv _ now i ih
  | gaddr now a _ ih => exact get_by_addr_inv _ now a ih
  | clean _ ih => exact cleanup_inv _ ih

/-! ### The bijection between the two lookup axes (for C3) -/

/-- Shape of a successful `get_by_id` under the invariant: the result carries
the looked-up id, and the same `SocketId` is returned by `get_by_addr` on its
address, in the same state at the same instant. -/
theorem get_by_id_some_shape (c : Cache) (hc : Inv c) (now : Int) (i : Nat) (s : SocketId)
    (h : (c.get_by_id now i).1 = some s) :
    s.id = i ∧ (c.get_by_addr now s.addr).1 = some s := by
  rw [Cache.get_by_id] at h
  cases hbi : alookup i c.by_id with
  | none =>
      rw [hbi] at h
      exact absurd h (by simp)
  | some r =>
      rw [hbi] at h
      dsimp only at h
      rw [Cache.prepare_entry] at h
      cases hent : alookup r c.entries with
      | none =>
          rw [hent] at h
          exact absurd h (by simp)
      | some e =>
          rw [hent] at h
          dsimp only at h
          by_cases hexp : c.timeout < now - e.last_access
          · rw [if_pos hexp] at h
            exact absurd h (by simp)
          · rw [if_neg hexp] at h
            obtain rfl : e.data = s := by simpa using h
            obtain ⟨e', he', hid, haddr⟩ := hc.byIdOk i r hbi
            rw [hent] at he'
            obtain rfl : e = e' := by simpa using he'
            refine ⟨hid, ?_⟩
            rw [Cache.get_by_addr, haddr]
            dsimp only
            rw [Cache.prepare_entry, hent]
            dsimp only
            rw [if_neg hexp]

/-- Shape of a successful `get_by_addr` under the invariant: the result
carries the looked-up address, and the same `SocketId` is returned by
`get_by_id` on its id, in the same state at the same instant. -/
theorem get_by_addr_some_shape (c : Cache) (hc : Inv c) (now : Int) (a : Nat) (s : SocketId)
    (h : (c.get_by_addr now a).1 = some s) :
    s.addr = a ∧ (c.get_by_id now s.id).1 = some s := by
  rw [Cache.get_by_addr] at h
  cases hba : alookup a c.by_addr with
  | none =>
      rw [hba] at h
      exact absurd h (by simp)
  | some r =>
      rw [hba] at h
      dsimp only at h
      rw [Cache.prepare_entry] at h
      cases hent : alookup r c.entries with
      | none =>
          rw [hent] at h
          exact absurd h (by simp)
      | some e =>
          rw [hent] at h
          dsimp only at h
          by_cases hexp : c.timeout < now - e.last_access
          · rw [if_pos hexp] at h
            exact absurd h (by simp)
          · rw [if_neg hexp] at h
            obtain rfl : e.data = s := by simpa using h
            obtain ⟨e', he', haddr, hid⟩ := hc.byAddrOk a r hba
            rw [hent] at he'
            obtain rfl : e = e' := by simpa using he'
            refine ⟨haddr, ?_⟩
            rw [Cache.get_by_id, hid]
            dsimp only
            rw [Cache.prepare_entry, hent]
            dsimp only
            rw [if_neg hexp]

/-- Claim C3 counterexample: the claim quantifies over sequences that include
`insert` with a supplied id replacing a same-id entry.  Two such inserts —
id 0 for peer 1, then id 0 for peer 2 — leave the stale `by_addr` binding of
peer 1 in place: `get_by_addr(1)` still answers `{id 0, addr 1}` while
`get_by_id(0)` answers `{id 0, addr 2}`, so two live entries share id 0 and
`get_by_id(i).addr = a ⇔ get_by_addr(a).id = i` fails. -/
theorem insert_supplied_id_breaks_bijection_cex :
    ((((Cache.new 100).insert 0 (some 0) 1).2.insert 0 (some 0) 2).2.get_by_addr 0 1).1 =
      some { id := 0, addr := 1 }
    ∧ ((((Cache.new 100).insert 0 (some 0) 1).2.insert 0 (some 0) 2).2.get_by_id 0 0).1 =
      some { id := 0, addr := 2 }
    ∧ ({ id := 0, addr := 2 } : SocketId) ≠ { id := 0, addr := 1 } := by
  refine ⟨rfl, rfl, by decide⟩

/-- Claim C3 (corrected): the bijection invariant holds for every state
reachable under the operations the entry dispatcher actually performs —
`get_or_insert_by_addr`, `get_by_id`, `get_by_addr` and `cleanup` from the
fresh cache, i.e. excluding `insert` with a supplied id (which can replace a
same-id entry and leave a stale binding on the other axis).  In every such
state, at any instant: a hit on one axis is mirrored exactly on the other
axis (`get_by_id(i) = ⟨i, a⟩` iff `get_by_addr(a) = ⟨i, a⟩`), and ids and
peer addresses are each unique across live entries (entries returned by a
lookup). -/
theorem entry_cache_bijection (t : Int) (c : Cache) (hc : Reach t c) (now : Int) :
    (∀ i s, (c.get_by_id now i).1 = some s →
      s.id = i ∧ (c.get_by_addr now s.addr).1 = some s)
    ∧ (∀ a s, (c.get_by_addr now a).1 = some s →
      s.addr = a ∧ (c.get_by_id now s.id).1 = some s)
    ∧ (∀ i j s s', (c.get_by_id now i).1 = some s → (c.get_by_id now j).1 = some s' →
      s.addr = s'.addr → i = j)
    ∧ (∀ a b s s', (c.get_by_addr now a).1 = some s → (c.get_by_addr now b).1 = some s' →
      s.id = s'.id → a = b) := by
  have hinv : Inv c := Reach_inv hc
  refine ⟨fun i s h => get_by_id_some_shape c hinv now i s h,
    fun a s h => get_by_addr_some_shape c hinv now a s h, ?_, ?_⟩
  · intro i j s s' h1 h2 haddr
    obtain ⟨hid1, hba1⟩ := get_by_id_some_shape c hinv now i s h1
    obtain ⟨hid2, hba2⟩ := get_by_id_some_shape c hinv now j s' h2
    rw [haddr] at hba1
    rw [hba1] at hba2
    obtain rfl : s = s' := by simpa using hba2
    rw [← hid1, ← hid2]
  · intro a b s s' h1 h2 hid
    obtain ⟨haddr1, hbi1⟩ := get_by_addr_some_shape c hinv now a s h1
    obtain ⟨haddr2, hbi2⟩ := get_by_addr_some_shape c hinv now b s' h2
    rw [hid] at hbi1
    rw [hbi1] at hbi2
    obtain rfl : s = s' := by simpa using hbi2
    rw [← haddr1, ← haddr2]

/-- Witness for `entry_cache_bijection`: after one `get_or_insert_by_addr`
for peer 5 on the fresh cache (a reachable state), `get_by_id 0` answers
`⟨0, 5⟩` and the theorem yields the mirrored `get_by_addr 5` hit. -/
theorem entry_cache_bijection_witness :
    ((((Cache.new 100).get_or_insert_by_addr 0 5).2.get_by_id 0 0).1 =
      some { id := 0, addr := 5 })
    ∧ ((((Cache.new 100).get_or_insert_by_addr 0 5).2.get_by_addr 0 5).1 =
      some { id := 0, addr := 5 }) :=
  have h : ((((Cache.new 100).get_or_insert_by_addr 0 5).2.get_by_id 0 0).1 =
      some { id := 0, addr := 5 }) := rfl
  ⟨h, ((entry_cache_bijection 100 _ (Reach.goi 0 5 Reach.init) 0).1 0
      { id := 0, addr := 5 } h).2⟩

end Udptun
